import Mathlib

/-!
Verification of the Fluorine-Chess search core against its specification.

The definitions below are shallow embeddings of the C++ sources:
`search.cpp` (modern search), `uci.cpp`, and the unnamed source holding
`position.h` plus the classic search variant.  Machine integers are
modelled as `Int` or `Nat` (no overflow occurs in the embedded fragments);
the truncating C++ integer division is `Int.tdiv`; 64-bit bitboards are
`Nat` values below `2 ^ 64` combined with `|||`, `&&&`, `^^^`.
-/

namespace Fluorine

/-- Modelled from the spec: the `Value` constants come from `types.h`, which is
not among the provided sources.  The spec fixes `MaxPly = 246`; the remaining
constants are the standard definitions of the engine family that the sources
compile against: `VALUE_MATE = 32000`, `VALUE_INFINITE = 32001`,
`VALUE_NONE = 32002`, `VALUE_MATE_IN_MAX_PLY = VALUE_MATE - MAX_PLY`,
`VALUE_TB = VALUE_MATE_IN_MAX_PLY - 1`, `VALUE_TB_WIN_IN_MAX_PLY =
VALUE_TB - MAX_PLY`, and the negated mirror values. -/
def MAX_PLY : Int := 246

def VALUE_DRAW : Int := 0

def VALUE_MATE : Int := 32000

def VALUE_INFINITE : Int := 32001

def VALUE_NONE : Int := 32002

def VALUE_MATE_IN_MAX_PLY : Int := VALUE_MATE - MAX_PLY

def VALUE_MATED_IN_MAX_PLY : Int := -VALUE_MATE_IN_MAX_PLY

def VALUE_TB : Int := VALUE_MATE_IN_MAX_PLY - 1

def VALUE_TB_WIN_IN_MAX_PLY : Int := VALUE_TB - MAX_PLY

def VALUE_TB_LOSS_IN_MAX_PLY : Int := -VALUE_TB_WIN_IN_MAX_PLY

/-- `mate_in(ply)` from `types.h` (modelled from the spec): mate score seen
from `ply` plies into the search. -/
def mate_in (ply : Int) : Int := VALUE_MATE - ply

/-- `mated_in(ply)` from `types.h` (modelled from the spec). -/
def mated_in (ply : Int) : Int := -VALUE_MATE + ply

/- Bridging lemmas between the C++ truncating division `Int.tdiv` and the
mathematical division of `Int`. -/

theorem tdiv_nonneg_eq (x y : Int) (hx : 0 ≤ x) (hy : 0 ≤ y) : Int.tdiv x y = x / y :=
  Int.tdiv_eq_ediv hx hy

theorem tdiv_neg_eq (x : Int) (y : Int) (hx : x < 0) (hy : 0 ≤ y) :
    Int.tdiv x y = -((-x) / y) := by
  have h1 : (-x).tdiv y = -(x.tdiv y) := Int.neg_tdiv x y
  have h2 : (-x).tdiv y = (-x) / y := Int.tdiv_eq_ediv (by omega) hy
  omega

/-! ## C1: transposition-table value translation (`value_to_tt` / `value_from_tt`)

From `search.cpp` lines 2232-2278 (modern) and the classic search part lines
2667-2710.  `value_to_tt` is textually identical in both variants. -/

/-- `value_to_tt(v, ply)` from `search.cpp`: a mate or TB score is moved from
"plies from the root" to "plies from the current node" before being stored. -/
def value_to_tt (v ply : Int) : Int :=
  if v ≥ VALUE_TB_WIN_IN_MAX_PLY then v + ply
  else if v ≤ VALUE_TB_LOSS_IN_MAX_PLY then v - ply
  else v

/-- `value_from_tt(v, ply, r50c)` from `search.cpp` (modern variant), with the
rule-50 downgrade branches for near-mate and near-TB scores. -/
def value_from_tt (v ply r50c : Int) : Int :=
  if v = VALUE_NONE then VALUE_NONE
  else if v ≥ VALUE_TB_WIN_IN_MAX_PLY then
    if v ≥ VALUE_MATE_IN_MAX_PLY ∧ VALUE_MATE - v > 100 - r50c then
      VALUE_TB_WIN_IN_MAX_PLY - 1
    else if VALUE_TB - v > 100 - r50c then VALUE_TB_WIN_IN_MAX_PLY - 1
    else v - ply
  else if v ≤ VALUE_TB_LOSS_IN_MAX_PLY then
    if v ≤ VALUE_MATED_IN_MAX_PLY ∧ VALUE_MATE + v > 100 - r50c then
      VALUE_TB_LOSS_IN_MAX_PLY + 1
    else if VALUE_TB + v > 100 - r50c then VALUE_TB_LOSS_IN_MAX_PLY + 1
    else v + ply
  else v

/-- `Search::Classic::value_from_tt<SearchMate>(v, ply, r50c)` from the classic
search part: the `SearchMate = false` instantiation downgrades only mate
scores (margin `99 - r50c`, sentinels `VALUE_MATE_IN_MAX_PLY - 1` and
`VALUE_MATED_IN_MAX_PLY + 1`); the `SearchMate = true` instantiation never
downgrades. -/
def value_from_tt_classic (searchMate : Bool) (v ply r50c : Int) : Int :=
  if v = VALUE_NONE then VALUE_NONE
  else if searchMate = false then
    if v ≥ VALUE_TB_WIN_IN_MAX_PLY then
      if v ≥ VALUE_MATE_IN_MAX_PLY ∧ VALUE_MATE - v > 99 - r50c then
        VALUE_MATE_IN_MAX_PLY - 1
      else v - ply
    else if v ≤ VALUE_TB_LOSS_IN_MAX_PLY then
      if v ≤ VALUE_MATED_IN_MAX_PLY ∧ VALUE_MATE + v > 99 - r50c then
        VALUE_MATED_IN_MAX_PLY + 1
      else v + ply
    else v
  else
    if v ≥ VALUE_TB_WIN_IN_MAX_PLY then v - ply
    else if v ≤ VALUE_TB_LOSS_IN_MAX_PLY then v + ply
    else v

/-- The downgrade branches of the modern `value_from_tt` fire on the stored
value `w` with rule-50 counter `r50c`. -/
def downgradeModern (w r50c : Int) : Prop :=
  (w ≥ VALUE_TB_WIN_IN_MAX_PLY ∧
    ((w ≥ VALUE_MATE_IN_MAX_PLY ∧ VALUE_MATE - w > 100 - r50c) ∨
      VALUE_TB - w > 100 - r50c)) ∨
  (w ≤ VALUE_TB_LOSS_IN_MAX_PLY ∧
    ((w ≤ VALUE_MATED_IN_MAX_PLY ∧ VALUE_MATE + w > 100 - r50c) ∨
      VALUE_TB + w > 100 - r50c))

/-- The downgrade branches of the classic `value_from_tt<false>` fire on the
stored value `w` with rule-50 counter `r50c`. -/
def downgradeClassic (w r50c : Int) : Prop :=
  (w ≥ VALUE_TB_WIN_IN_MAX_PLY ∧ w ≥ VALUE_MATE_IN_MAX_PLY ∧
    VALUE_MATE - w > 99 - r50c) ∨
  (w ≤ VALUE_TB_LOSS_IN_MAX_PLY ∧ w ≤ VALUE_MATED_IN_MAX_PLY ∧
    VALUE_MATE + w > 99 - r50c)

instance (w r50c : Int) : Decidable (downgradeModern w r50c) := by
  unfold downgradeModern; infer_instance

instance (w r50c : Int) : Decidable (downgradeClassic w r50c) := by
  unfold downgradeClassic; infer_instance

/-- C1 (counterexample): the round-trip law fails as stated.  At
`v = VALUE_MATE`, `ply = 2`, `r50c = 0` the stored value
`value_to_tt(v, ply) = 32002` collides with `VALUE_NONE`, so `value_from_tt`
returns `VALUE_NONE ≠ v` although `v ≠ VALUE_NONE`, `0 ≤ ply < MAX_PLY`,
and no downgrade branch fires on the stored value. -/
theorem C1_counterexample :
    VALUE_MATE ≠ VALUE_NONE ∧ (0 : Int) ≤ 2 ∧ (2 : Int) < MAX_PLY ∧
    ¬ downgradeModern (value_to_tt VALUE_MATE 2) 0 ∧
    ¬ downgradeClassic (value_to_tt VALUE_MATE 2) 0 ∧
    value_from_tt (value_to_tt VALUE_MATE 2) 2 0 ≠ VALUE_MATE ∧
    value_from_tt_classic false (value_to_tt VALUE_MATE 2) 2 0 ≠ VALUE_MATE := by
  refine ⟨by decide, by decide, by decide, by decide, by decide, by decide, by decide⟩

/-- C1 (amended): for every `v ≠ VALUE_NONE`, `0 ≤ ply < MAX_PLY` and every
rule-50 counter `r50c`, if additionally the stored value `value_to_tt(v, ply)`
does not collide with `VALUE_NONE`, then `value_from_tt(value_to_tt(v, ply),
ply, r50c) = v` whenever none of the downgrade branches fires on the stored
value; this holds for the modern `value_from_tt`, for the classic
`value_from_tt<false>`, and unconditionally (no downgrade branches exist) for
the classic `value_from_tt<true>`. -/
theorem C1_roundtrip_amended (v ply r50c : Int)
    (hv : v ≠ VALUE_NONE) (hply0 : 0 ≤ ply) (hply1 : ply < MAX_PLY)
    (hw : value_to_tt v ply ≠ VALUE_NONE) :
    (¬ downgradeModern (value_to_tt v ply) r50c →
      value_from_tt (value_to_tt v ply) ply r50c = v) ∧
    (¬ downgradeClassic (value_to_tt v ply) r50c →
      value_from_tt_classic false (value_to_tt v ply) ply r50c = v) ∧
    value_from_tt_classic true (value_to_tt v ply) ply r50c = v := by
  unfold value_to_tt value_from_tt value_from_tt_classic downgradeModern downgradeClassic at *
  simp only [VALUE_TB_WIN_IN_MAX_PLY, VALUE_TB_LOSS_IN_MAX_PLY, VALUE_TB,
    VALUE_MATE_IN_MAX_PLY, VALUE_MATED_IN_MAX_PLY, VALUE_MATE, VALUE_NONE,
    MAX_PLY] at *
  norm_num at *
  split_ifs at * <;> omega

/-- C1 (witness): the amended round-trip law applied to the concrete mate
score `mate_in 5 = 31995` at `ply = 3`, `r50c = 10`. -/
theorem C1_roundtrip_amended_witness :
    value_from_tt (value_to_tt 31995 3) 3 10 = 31995 := by
  have h := C1_roundtrip_amended 31995 3 10 (by decide) (by decide) (by decide) (by decide)
  exact h.1 (by decide)

/-! ## C7: Step 2 abort returns (`value_draw` and the stop/draw/max-ply guard)

From `search.cpp` lines 105-108 and 895-899, and the identical classic code. -/

/-- `value_draw(thisThread)` from `search.cpp`: the draw score with
anti-blindness jitter `VALUE_DRAW - 1 + (nodes & 0x2)`, where `nodes` is the
node counter of the searching thread. -/
def value_draw (nodes : Nat) : Int := VALUE_DRAW - 1 + ((nodes &&& 2 : Nat) : Int)

/-- Step 2 of `search` (both variants): inside `if (!rootNode)`, when the stop
flag is set, the position is a draw, or `ss->ply >= MAX_PLY`, the node returns
`(ss->ply >= MAX_PLY && !ss->inCheck) ? evaluate(pos) : value_draw(...)`.
`evalv` stands for the value of the external evaluator at the position;
`none` means the guard does not fire and the search continues. -/
def step2_abort (rootNode stop isDraw : Bool) (ply : Int) (inCheck : Bool)
    (nodes : Nat) (evalv : Int) : Option Int :=
  if rootNode = false ∧ (stop = true ∨ isDraw = true ∨ ply ≥ MAX_PLY) then
    some (if ply ≥ MAX_PLY ∧ inCheck = false then evalv else value_draw nodes)
  else none

/-- The jitter takes exactly the two values `VALUE_DRAW - 1` and
`VALUE_DRAW + 1`. -/
theorem value_draw_eq (nodes : Nat) :
    value_draw nodes = VALUE_DRAW - 1 ∨ value_draw nodes = VALUE_DRAW + 1 := by
  have h := Nat.and_two_pow nodes 1
  have h2 : (2 : Nat) ^ 1 = 2 := by norm_num
  rw [h2] at h
  unfold value_draw VALUE_DRAW
  cases hb : nodes.testBit 1 <;> rw [hb] at h <;> simp at h <;> rw [h] <;> simp

/-- C7 (counterexample): the claim fails as stated.  At a non-root node with
`ply = MAX_PLY` and the side to move not in check, Step 2 returns the static
evaluation (here `57`), not the jittered draw score `VALUE_DRAW - 1 +
(nodes & 2)` (which is `-1` at `nodes = 0`). -/
theorem C7_counterexample :
    step2_abort false false false MAX_PLY false 0 57 = some 57 ∧
    (57 : Int) ≠ value_draw 0 := by
  constructor
  · decide
  · decide

/-- C7 (amended): at every non-root node where the stop flag is set, the
position is a draw, or `ply ≥ MAX_PLY`, the search returns immediately; the
returned value is the jittered draw score `VALUE_DRAW - 1 + (nodes & 2)`
(hence `VALUE_DRAW - 1` or `VALUE_DRAW + 1`) in every case except
`ply ≥ MAX_PLY` with the side to move not in check, where the static
evaluation is returned instead. -/
theorem C7_step2_abort_amended (stop isDraw : Bool) (ply : Int) (inCheck : Bool)
    (nodes : Nat) (evalv : Int)
    (hguard : stop = true ∨ isDraw = true ∨ ply ≥ MAX_PLY) :
    (¬(ply ≥ MAX_PLY ∧ inCheck = false) →
      step2_abort false stop isDraw ply inCheck nodes evalv =
        some (value_draw nodes) ∧
      (value_draw nodes = VALUE_DRAW - 1 ∨ value_draw nodes = VALUE_DRAW + 1)) ∧
    ((ply ≥ MAX_PLY ∧ inCheck = false) →
      step2_abort false stop isDraw ply inCheck nodes evalv = some evalv) ∧
    step2_abort true stop isDraw ply inCheck nodes evalv = none := by
  refine ⟨fun hnot => ?_, fun hyes => ?_, ?_⟩
  · constructor
    · unfold step2_abort
      rw [if_pos ⟨rfl, hguard⟩, if_neg hnot]
    · exact value_draw_eq nodes
  · unfold step2_abort
    rw [if_pos ⟨rfl, hguard⟩, if_pos hyes]
  · unfold step2_abort
    simp

/-- C7 (witness): the amended Step 2 behavior at the concrete input
`stop = true`, `isDraw = false`, `ply = 5`, in check, `nodes = 6`. -/
theorem C7_step2_abort_amended_witness :
    step2_abort false true false 5 true 6 0 = some (value_draw 6) ∧
    value_draw 6 = VALUE_DRAW + 1 := by
  have h := C7_step2_abort_amended true false 5 true 6 0 (Or.inl rfl)
  refine ⟨(h.1 (by decide)).1, by decide⟩

/-! ## C3: upcoming-repetition handling (alpha lift toward draw)

From `search.cpp` lines 812-840 (modern, a non-Shashin and a Shashin branch)
and the classic search part lines 575-582.  The functions return the pair of
the possibly lifted alpha and an optional early return value. -/

/-- Game-cycle prologue of the modern `search`: with `Shashin = false` the
lift fires at every non-root node with `alpha < VALUE_DRAW` and a detected
game cycle; with `Shashin = true` it additionally requires
`rule50_count() >= 3`.  When the lifted alpha reaches `beta` the node returns
it immediately. -/
def game_cycle_modern (shashin rootNode cyc : Bool) (rule50 alpha beta : Int)
    (nodes : Nat) : Int × Option Int :=
  if shashin = false then
    if rootNode = false ∧ alpha < VALUE_DRAW ∧ cyc = true then
      (value_draw nodes,
        if value_draw nodes ≥ beta then some (value_draw nodes) else none)
    else (alpha, none)
  else
    if rootNode = false ∧ cyc = true ∧ rule50 ≥ 3 ∧ alpha < VALUE_DRAW then
      (value_draw nodes,
        if value_draw nodes ≥ beta then some (value_draw nodes) else none)
    else (alpha, none)

/-- Game-cycle prologue of the classic `search` (SearchMate = false path):
the lift fires exactly at non-root nodes with `rule50_count() >= 3`,
`alpha < VALUE_DRAW` and a detected game cycle. -/
def game_cycle_classic (rootNode : Bool) (rule50 alpha beta : Int) (cyc : Bool)
    (nodes : Nat) : Int × Option Int :=
  if rootNode = false ∧ rule50 ≥ 3 ∧ alpha < VALUE_DRAW ∧ cyc = true then
    (value_draw nodes,
      if value_draw nodes ≥ beta then some (value_draw nodes) else none)
  else (alpha, none)

/-- C3 (counterexample): the claim fails on the modern non-Shashin search
path: at a non-root node with `rule50 = 0 < 3`, a detected game cycle and
`alpha = -10 < VALUE_DRAW`, alpha is nevertheless lifted to the jittered draw
score (here `-1` at `nodes = 0`). -/
theorem C3_counterexample :
    (game_cycle_modern false false true 0 (-10) 100 0).1 = value_draw 0 ∧
    value_draw 0 = -1 ∧ (game_cycle_modern false false true 0 (-10) 100 0).1 ≠ -10 ∧
    (0 : Int) < 3 := by
  refine ⟨by decide, by decide, by decide, by decide⟩

/-- C3 (amended): in the classic search and in the Shashin-enabled modern
search, alpha is lifted to the jittered draw score exactly when the node is
not the root, `rule50_count() ≥ 3`, a game cycle is detected and
`alpha < VALUE_DRAW`; in the non-Shashin modern search the lift fires exactly
when the node is not the root, a game cycle is detected and
`alpha < VALUE_DRAW`, with no rule-50 condition.  In every variant, when the
lifted alpha is at least `beta` the node returns it immediately, and
otherwise the search continues with the lifted alpha. -/
theorem C3_game_cycle_amended (rule50 alpha beta : Int) (cyc : Bool) (nodes : Nat) :
    (game_cycle_classic false rule50 alpha beta cyc nodes =
      game_cycle_modern true false cyc rule50 alpha beta nodes) ∧
    (rule50 ≥ 3 ∧ alpha < VALUE_DRAW ∧ cyc = true →
      (game_cycle_classic false rule50 alpha beta cyc nodes).1 = value_draw nodes ∧
      (game_cycle_classic false rule50 alpha beta cyc nodes).2 =
        (if value_draw nodes ≥ beta then some (value_draw nodes) else none)) ∧
    (¬(rule50 ≥ 3 ∧ alpha < VALUE_DRAW ∧ cyc = true) →
      game_cycle_classic false rule50 alpha beta cyc nodes = (alpha, none)) ∧
    (alpha < VALUE_DRAW ∧ cyc = true →
      (game_cycle_modern false false cyc rule50 alpha beta nodes).1 = value_draw nodes) ∧
    (¬(alpha < VALUE_DRAW ∧ cyc = true) →
      game_cycle_modern false false cyc rule50 alpha beta nodes = (alpha, none)) ∧
    (∀ shashin : Bool,
      game_cycle_modern shashin true cyc rule50 alpha beta nodes = (alpha, none) ∧
      game_cycle_classic true rule50 alpha beta cyc nodes = (alpha, none)) := by
  unfold game_cycle_classic game_cycle_modern
  refine ⟨?_, fun h => ?_, fun h => ?_, fun h => ?_, fun h => ?_, fun shashin => ?_⟩
  · split_ifs <;> first | rfl | tauto
  · split_ifs <;> first | exact ⟨rfl, rfl⟩ | tauto
  · split_ifs <;> first | rfl | tauto
  · split_ifs <;> first | rfl | tauto
  · split_ifs <;> first | rfl | tauto
  · cases shashin <;> exact ⟨by split_ifs <;> first | rfl | tauto,
      by split_ifs <;> first | rfl | tauto⟩

/-- C3 (witness): the amended game-cycle behavior at the concrete input
`rule50 = 5`, `alpha = -20`, `beta = 50`, cycle detected, `nodes = 0`:
alpha is lifted to `-1` and no early return happens since `-1 < 50`. -/
theorem C3_game_cycle_amended_witness :
    (game_cycle_classic false 5 (-20) 50 true 0).1 = value_draw 0 ∧
    (game_cycle_modern false false true 5 (-20) 50 0).1 = value_draw 0 := by
  have h := C3_game_cycle_amended 5 (-20) 50 true 0
  exact ⟨(h.2.1 (by decide)).1, h.2.2.2.1 (by decide)⟩

/-! ## C4: null-move pruning reduction

From `search.cpp` lines 1176-1194 (modern) and the classic search part lines
841-854.  After `do_null_move` the child is searched at `depth - R`. -/

/-- The null-move reduction of the modern `search`:
`R = std::min(int(eval - beta) / 144, 6) + depth / 3 + 4`. -/
def nullmove_R_modern (evalv beta depth : Int) : Int :=
  min (Int.tdiv (evalv - beta) 144) 6 + Int.tdiv depth 3 + 4

/-- The null-move reduction of the classic `search`:
`R = std::min(int(eval - beta) / 168, 7) + depth / 3 + 4 - (complexity > 861)`. -/
def nullmove_R_classic (evalv beta depth complexity : Int) : Int :=
  min (Int.tdiv (evalv - beta) 168) 7 + Int.tdiv depth 3 + 4 -
    (if complexity > 861 then 1 else 0)

/-- The reduction formula stated by the claim (and the spec):
`R = min((eval - beta)/168, 6) + depth/3 + 4`.  This definition follows the
words of the spec and is compared with the two source formulas. -/
def nullmove_R_spec (evalv beta depth : Int) : Int :=
  min (Int.tdiv (evalv - beta) 168) 6 + Int.tdiv depth 3 + 4

/-- The depth of the reduced search after `do_null_move` in the modern
variant: `search(..., depth - R, ...)`. -/
def nullmove_child_depth_modern (evalv beta depth : Int) : Int :=
  depth - nullmove_R_modern evalv beta depth

/-- The depth of the reduced search after `do_null_move` in the classic
variant. -/
def nullmove_child_depth_classic (evalv beta depth complexity : Int) : Int :=
  depth - nullmove_R_classic evalv beta depth complexity

/-- C4 (counterexample): with `eval - beta = 144` and `depth = 1` the claimed
reduction is `min(144/168, 6) + 0 + 4 = 4` but the modern search uses
`min(144/144, 6) + 0 + 4 = 5`; with `eval - beta = 1344`, `depth = 1` and
`complexity = 0` the classic search uses `min(8, 7) + 0 + 4 = 11` while the
claim gives `min(8, 6) + 0 + 4 = 10`. -/
theorem C4_counterexample :
    nullmove_R_modern 144 0 1 = 5 ∧ nullmove_R_spec 144 0 1 = 4 ∧
    nullmove_R_modern 144 0 1 ≠ nullmove_R_spec 144 0 1 ∧
    nullmove_R_classic 1344 0 1 0 = 11 ∧ nullmove_R_spec 1344 0 1 = 10 ∧
    nullmove_R_classic 1344 0 1 0 ≠ nullmove_R_spec 1344 0 1 := by
  refine ⟨by decide, by decide, by decide, by decide, by decide, by decide⟩

/-- C4 (amended): under the null-move preconditions (`eval ≥ beta`,
`depth ≥ 1`), the child search after `do_null_move` runs at `depth - R`
where `R = min((eval - beta)/144, 6) + depth/3 + 4` in the modern search and
`R = min((eval - beta)/168, 7) + depth/3 + 4 - (complexity > 861)` in the
classic search; both reductions are at least `4`, and the modern reduction
is at least the value of the formula stated by the spec. -/
theorem C4_nullmove_reduction_amended (evalv beta depth complexity : Int)
    (heval : evalv ≥ beta) (hdepth : depth ≥ 1) :
    nullmove_child_depth_modern evalv beta depth =
      depth - (min (Int.tdiv (evalv - beta) 144) 6 + Int.tdiv depth 3 + 4) ∧
    nullmove_child_depth_classic evalv beta depth complexity =
      depth - (min (Int.tdiv (evalv - beta) 168) 7 + Int.tdiv depth 3 + 4 -
        (if complexity > 861 then 1 else 0)) ∧
    4 ≤ nullmove_R_modern evalv beta depth ∧
    (if complexity > 861 then 3 else 4) ≤ nullmove_R_classic evalv beta depth complexity ∧
    nullmove_R_spec evalv beta depth ≤ nullmove_R_modern evalv beta depth := by
  have hd144 : Int.tdiv (evalv - beta) 144 = (evalv - beta) / 144 :=
    tdiv_nonneg_eq _ _ (by omega) (by norm_num)
  have hd168 : Int.tdiv (evalv - beta) 168 = (evalv - beta) / 168 :=
    tdiv_nonneg_eq _ _ (by omega) (by norm_num)
  have hd3 : Int.tdiv depth 3 = depth / 3 :=
    tdiv_nonneg_eq _ _ (by omega) (by norm_num)
  have h144nn : 0 ≤ (evalv - beta) / 144 := Int.ediv_nonneg (by omega) (by norm_num)
  have h168nn : 0 ≤ (evalv - beta) / 168 := Int.ediv_nonneg (by omega) (by norm_num)
  have h3nn : 0 ≤ depth / 3 := Int.ediv_nonneg (by omega) (by norm_num)
  have hmono : (evalv - beta) / 168 ≤ (evalv - beta) / 144 := by
    have hx : 0 ≤ evalv - beta := by omega
    omega
  refine ⟨rfl, rfl, ?_, ?_, ?_⟩
  · unfold nullmove_R_modern
    rw [hd144, hd3]
    rcases le_or_lt ((evalv - beta) / 144) 6 with h | h <;> omega
  · unfold nullmove_R_classic
    rw [hd168, hd3]
    split_ifs with hc
    · rcases le_or_lt ((evalv - beta) / 168) 7 with h | h <;> omega
    · rcases le_or_lt ((evalv - beta) / 168) 7 with h | h <;> omega
  · unfold nullmove_R_spec nullmove_R_modern
    rw [hd144, hd168, hd3]
    rcases le_or_lt ((evalv - beta) / 168) 6 with h1 | h1 <;>
      rcases le_or_lt ((evalv - beta) / 144) 6 with h2 | h2 <;> omega

/-- C4 (witness): the amended null-move reduction at `eval = 200`,
`beta = 50`, `depth = 9`, `complexity = 900`. -/
theorem C4_nullmove_reduction_amended_witness :
    nullmove_child_depth_modern 200 50 9 = 9 - 8 ∧
    nullmove_child_depth_classic 200 50 9 900 = 9 - 6 := by
  have h := C4_nullmove_reduction_amended 200 50 9 900 (by decide) (by decide)
  exact ⟨by rw [h.1]; decide, by rw [h.2.1]; decide⟩

/-! ## C2: Step 21 (mate, stalemate and singular verification)

From `search.cpp` lines 1885-1888 followed by the tail of `search`
(the `std::min(bestValue, maxValue)` clamp at PV nodes and `return
bestValue`), and the identical classic code (part lines 2181-2184, 2198-2199).
`maxValue` is `VALUE_INFINITE` unless a tablebase probe recorded an upper
bound earlier in the node. -/

/-- The value returned by the modern `search` after the move loop: Step 21
assigns `bestValue = excludedMove ? alpha : ss->inCheck ? mated_in(ss->ply) :
VALUE_DRAW` when `moveCount == 0`, then at PV nodes (unless the Shashin layer
is active with a Capablanca win-probability range) clamps `bestValue` by
`maxValue`, and returns it. -/
def search_after_loop_modern (shashin capablanca pvNode : Bool) (moveCount : Nat)
    (excludedMove inCheck : Bool) (ply alpha bestValue maxValue : Int) : Int :=
  let bv := if moveCount = 0 then
      (if excludedMove = true then alpha
       else if inCheck = true then mated_in ply
       else VALUE_DRAW)
    else bestValue
  if pvNode = true ∧ (shashin = false ∨ capablanca = false) then min bv maxValue else bv

/-- The value returned by the classic `search` after the move loop: Step 21
as in the modern variant, then `if constexpr (PvNode) bestValue =
std::min(bestValue, maxValue)`, and `return bestValue`. -/
def search_after_loop_classic (pvNode : Bool) (moveCount : Nat)
    (excludedMove inCheck : Bool) (ply alpha bestValue maxValue : Int) : Int :=
  let bv := if moveCount = 0 then
      (if excludedMove = true then alpha
       else if inCheck = true then mated_in ply
       else VALUE_DRAW)
    else bestValue
  if pvNode = true then min bv maxValue else bv

/-- C2 (confirmed): in both search variants, whenever the move loop ends with
`moveCount = 0` and no tablebase upper bound was recorded
(`maxValue = VALUE_INFINITE`), the value returned is `alpha` if an excluded
move is set, `mated_in(ply)` if the side to move is in check, and
`VALUE_DRAW` otherwise — for every node type, window with
`-VALUE_INFINITE ≤ alpha < VALUE_INFINITE`, and ply `0 ≤ ply < MAX_PLY`. -/
theorem C2_no_legal_moves (shashin capablanca pvNode excludedMove inCheck : Bool)
    (ply alpha bestValue : Int)
    (halpha0 : -VALUE_INFINITE ≤ alpha) (halpha1 : alpha < VALUE_INFINITE)
    (hply0 : 0 ≤ ply) (hply1 : ply < MAX_PLY) :
    search_after_loop_modern shashin capablanca pvNode 0 excludedMove inCheck
        ply alpha bestValue VALUE_INFINITE =
      (if excludedMove = true then alpha
       else if inCheck = true then mated_in ply
       else VALUE_DRAW) ∧
    search_after_loop_classic pvNode 0 excludedMove inCheck
        ply alpha bestValue VALUE_INFINITE =
      (if excludedMove = true then alpha
       else if inCheck = true then mated_in ply
       else VALUE_DRAW) := by
  unfold search_after_loop_modern search_after_loop_classic
  simp only []
  have hbv : (if excludedMove = true then alpha
      else if inCheck = true then mated_in ply
      else VALUE_DRAW) ≤ VALUE_INFINITE := by
    unfold mated_in VALUE_INFINITE VALUE_MATE VALUE_DRAW MAX_PLY at *
    split_ifs <;> omega
  constructor
  · split_ifs <;> simp_all [min_eq_left]
  · split_ifs <;> simp_all [min_eq_left]

/-- C2 (witness): the no-legal-move return at the concrete input: in-check
node at `ply = 7` with no excluded move returns `mated_in 7 = -31993`. -/
theorem C2_no_legal_moves_witness :
    search_after_loop_modern false false true 0 false true 7 (-100) 0
        VALUE_INFINITE = mated_in 7 ∧
    mated_in 7 = -31993 := by
  have h := C2_no_legal_moves false false true false true 7 (-100) 0
    (by decide) (by decide) (by decide) (by decide)
  refine ⟨?_, by decide⟩
  rw [h.1]
  decide

/-! ## C5: qsearch stand pat and beta-cut smoothing

From `search.cpp` lines 2035-2082 (Step 4, stand pat), the move loop value
updates (lines 2186-2204) and the tail smoothing (lines 2216-2221), and the
classic qsearch (part lines 2290-2345 and its tail, which has no smoothing).
The skeleton abstracts the node: `s` is the value installed by Step 4 (the
corrected static evaluation, possibly improved by the TT value) and `vals`
is the sequence of child values `-qsearch(...)` produced by the move loop
for the moves that are actually searched. -/

/-- Step 8 of the modern qsearch move loop: `bestValue` is raised to each
child value; when the value exceeds `alpha` the loop breaks on `value >=
beta` and otherwise sets `alpha = value`. -/
def qloop_modern (alpha beta best : Int) : List Int → Int
  | [] => best
  | v :: rest =>
    if v > best then
      if v > alpha then
        if v ≥ beta then v
        else qloop_modern v beta v rest
      else qloop_modern alpha beta v rest
    else qloop_modern alpha beta best rest

/-- Step 8 of the classic qsearch move loop: as in the modern variant, but
`alpha` is only updated at PV nodes (`if (PvNode && value < beta) alpha =
value; else break`). -/
def qloop_classic (pv : Bool) (alpha beta best : Int) : List Int → Int
  | [] => best
  | v :: rest =>
    if v > best then
      if v > alpha then
        if pv = true ∧ v < beta then qloop_classic pv v beta v rest
        else v
      else qloop_classic pv alpha beta v rest
    else qloop_classic pv alpha beta best rest

/-- The tail of the modern qsearch: `if (std::abs(bestValue) <
VALUE_TB_WIN_IN_MAX_PLY && bestValue >= beta) bestValue = (3 * bestValue +
beta) / 4;` followed by `return bestValue`. -/
def qtail_modern (beta b : Int) : Int :=
  if |b| < VALUE_TB_WIN_IN_MAX_PLY ∧ b ≥ beta then Int.tdiv (3 * b + beta) 4 else b

/-- The value computed by the modern qsearch at a node where the side to move
is not in check: the stand-pat value `s` is installed as `bestValue`; if it
already reaches `beta` it is returned immediately (unsmoothed); otherwise
`alpha` is raised to `s`, the move loop runs, and the tail smoothing is
applied. -/
def qsearch_skeleton_modern (alpha beta s : Int) (vals : List Int) : Int :=
  if s ≥ beta then s
  else qtail_modern beta (qloop_modern (max alpha s) beta s vals)

/-- The value computed by the classic qsearch at a node where the side to
move is not in check: as in the modern variant but `alpha` is raised only at
PV nodes and the tail applies no smoothing. -/
def qsearch_skeleton_classic (pv : Bool) (alpha beta s : Int) (vals : List Int) : Int :=
  if s ≥ beta then s
  else qloop_classic pv (if pv = true ∧ s > alpha then s else alpha) beta s vals

theorem qloop_modern_ge (vals : List Int) :
    ∀ alpha beta best : Int, best ≤ qloop_modern alpha beta best vals := by
  induction vals with
  | nil => intro alpha beta best; exact le_refl best
  | cons v rest ih =>
    intro alpha beta best
    unfold qloop_modern
    split_ifs with h1 h2 h3
    · omega
    · exact le_trans (by omega) (ih v beta v)
    · exact le_trans (by omega) (ih alpha beta v)
    · exact ih alpha beta best

theorem qloop_classic_ge (vals : List Int) :
    ∀ (pv : Bool) (alpha beta best : Int), best ≤ qloop_classic pv alpha beta best vals := by
  induction vals with
  | nil => intro pv alpha beta best; exact le_refl best
  | cons v rest ih =>
    intro pv alpha beta best
    unfold qloop_classic
    split_ifs with h1 h2 h3
    · exact le_trans (by omega) (ih pv v beta v)
    · omega
    · exact le_trans (by omega) (ih pv alpha beta v)
    · exact ih pv alpha beta best

theorem tdiv_smooth_ge (b beta : Int) (h : beta ≤ b) :
    beta ≤ Int.tdiv (3 * b + beta) 4 := by
  rcases le_or_lt 0 (3 * b + beta) with hx | hx
  · rw [tdiv_nonneg_eq _ _ hx (by norm_num)]; omega
  · rw [tdiv_neg_eq _ _ hx (by norm_num)]; omega

/-- C5 (counterexample): the claim fails as stated.  At `alpha = -1`,
`beta = 0`, stand-pat value `40` (with `|40|` far below the tablebase-win
range), the stand-pat beta cutoff returns `40` unsmoothed, while the claimed
smoothing `(3·best + beta)/4` would give `30`; moreover the classic qsearch
never smooths. -/
theorem C5_counterexample :
    qsearch_skeleton_modern (-1) 0 40 [] = 40 ∧
    Int.tdiv (3 * 40 + 0) 4 = 30 ∧ (40 : Int) ≠ 30 ∧
    (40 : Int) ≥ 0 ∧ |(40 : Int)| < VALUE_TB_WIN_IN_MAX_PLY ∧
    qsearch_skeleton_classic true (-1) 100 10 [150] = 150 ∧
    (150 : Int) ≠ Int.tdiv (3 * 150 + 100) 4 := by
  refine ⟨by decide, by decide, by decide, by decide, by decide, by decide, by decide⟩

/-- C5 (amended): in a non-in-check qsearch the Step 4 value `s` is installed
as the initial lower bound and (i) when `s ≥ beta` the node returns `s`
itself, unsmoothed; (ii) in the modern variant, a beta cutoff reached through
the move loop (`bestValue ≥ beta` at the tail with `|bestValue|` below the
tablebase-win range) returns the smoothed value `(3·bestValue + beta)/4`;
(iii, iv) every value returned by either variant is at least the stand-pat
bound `s`. -/
theorem C5_qsearch_stand_pat_amended (pv : Bool) (alpha beta s : Int) (vals : List Int) :
    (s ≥ beta →
      qsearch_skeleton_modern alpha beta s vals = s ∧
      qsearch_skeleton_classic pv alpha beta s vals = s) ∧
    (s < beta →
      qloop_modern (max alpha s) beta s vals ≥ beta →
      |qloop_modern (max alpha s) beta s vals| < VALUE_TB_WIN_IN_MAX_PLY →
      qsearch_skeleton_modern alpha beta s vals =
        Int.tdiv (3 * qloop_modern (max alpha s) beta s vals + beta) 4) ∧
    s ≤ qsearch_skeleton_modern alpha beta s vals ∧
    s ≤ qsearch_skeleton_classic pv alpha beta s vals := by
  refine ⟨fun h => ?_, fun h hb habs => ?_, ?_, ?_⟩
  · unfold qsearch_skeleton_modern qsearch_skeleton_classic
    rw [if_pos h, if_pos h]
    exact ⟨rfl, rfl⟩
  · unfold qsearch_skeleton_modern qtail_modern
    rw [if_neg (by omega), if_pos ⟨habs, hb⟩]
  · unfold qsearch_skeleton_modern
    split_ifs with h
    · exact le_refl s
    · have hloop := qloop_modern_ge vals (max alpha s) beta s
      unfold qtail_modern
      split_ifs with h2
      · exact le_trans (by omega) (tdiv_smooth_ge _ _ h2.2)
      · exact hloop
  · unfold qsearch_skeleton_classic
    split_ifs with h h2
    · exact le_refl s
    · exact qloop_classic_ge vals pv s beta s
    · exact qloop_classic_ge vals pv alpha beta s

/-- C5 (witness): the amended qsearch properties at the concrete input
`alpha = -50`, `beta = 100`, stand pat `10`, child values `[120, 30]`:
the loop fails high at `120` and the tail smooths to `(3·120 + 100)/4 =
115`. -/
theorem C5_qsearch_stand_pat_amended_witness :
    qsearch_skeleton_modern (-50) 100 10 [120, 30] =
      Int.tdiv (3 * 120 + 100) 4 ∧
    Int.tdiv (3 * 120 + 100) 4 = 115 := by
  have h := C5_qsearch_stand_pat_amended true (-50) 100 10 [120, 30]
  have h2 := h.2.1 (by decide)
  have hload : qloop_modern (max (-50) 10) 100 10 [120, 30] = 120 := by decide
  refine ⟨?_, by decide⟩
  rw [h2 (by rw [hload]; decide) (by rw [hload]; decide), hload]

/-! ## C9: `update_continuation_histories`

From `search.cpp` lines 2356-2367 and the textually identical classic code
(part lines 2772-2783).  The stack is abstracted by the predicate `isOk i`
(the move at `ss - i` is a real move) and by `hist i` (the addressed entry
`(*(ss - i)->continuationHistory)[pc][to]` of the table reached through
frame `ss - i`). -/

/-- The saturating history update `operator<<` of a `StatsEntry`:
`entry += bonus - entry * abs(bonus) / D`.  The denominator `D = 29952` of
the continuation-history tables is modelled from the spec (the history-table
headers are not among the sources; the spec describes the update as a
saturating add of exactly this form). -/
def cmhAdd (entry bonus : Int) : Int :=
  entry + bonus - Int.tdiv (entry * |bonus|) 29952

/-- One iteration body of `update_continuation_histories`: when the move at
frame `ss - i` is ok, the entry of that frame is updated with
`bonus / (1 + 3 * (i == 3))`. -/
def uch_step (isOk : Nat → Bool) (bonus : Int) (hist : Nat → Int) (i : Nat) : Nat → Int :=
  if isOk i = true then
    Function.update hist i
      (cmhAdd (hist i) (Int.tdiv bonus (1 + 3 * (if i = 3 then 1 else 0))))
  else hist

/-- The loop of `update_continuation_histories` over the offsets list, with
the in-check break `if (ss->inCheck && i > 2) break;`. -/
def uch_loop (inCheck : Bool) (isOk : Nat → Bool) (bonus : Int)
    (hist : Nat → Int) : List Nat → (Nat → Int)
  | [] => hist
  | i :: rest =>
    if inCheck = true ∧ i > 2 then hist
    else uch_loop inCheck isOk bonus (uch_step isOk bonus hist i) rest

/-- `update_continuation_histories(ss, pc, to, bonus)` from `search.cpp`:
the loop `for (int i : {1, 2, 3, 4, 6})`. -/
def update_continuation_histories (inCheck : Bool) (isOk : Nat → Bool)
    (bonus : Int) (hist : Nat → Int) : Nat → Int :=
  uch_loop inCheck isOk bonus hist [1, 2, 3, 4, 6]

/-- The prefix of the offsets list actually visited by the loop: everything
when not in check, only the offsets `≤ 2` when in check. -/
def uch_visited (inCheck : Bool) (l : List Nat) : List Nat :=
  if inCheck = true then l.takeWhile (fun i => decide (i ≤ 2)) else l

/-- The offsets whose tables are updated. -/
def uch_offsets (inCheck : Bool) (isOk : Nat → Bool) : List Nat :=
  (uch_visited inCheck [1, 2, 3, 4, 6]).filter isOk

theorem uch_visited_subset (inCheck : Bool) (l : List Nat) (j : Nat)
    (h : j ∈ uch_visited inCheck l) : j ∈ l := by
  unfold uch_visited at h
  split_ifs at h
  · exact (List.takeWhile_sublist _).subset h
  · exact h

theorem uch_visited_cons (inCheck : Bool) (i : Nat) (rest : List Nat)
    (h : ¬(inCheck = true ∧ i > 2)) :
    uch_visited inCheck (i :: rest) = i :: uch_visited inCheck rest := by
  unfold uch_visited
  cases inCheck
  · simp
  · simp only [List.takeWhile]
    have hi : i ≤ 2 := by
      by_contra hcon
      exact h ⟨rfl, by omega⟩
    simp [hi]

theorem uch_loop_apply (inCheck : Bool) (isOk : Nat → Bool) (bonus : Int) :
    ∀ l : List Nat, l.Nodup → ∀ (hist : Nat → Int) (j : Nat),
      uch_loop inCheck isOk bonus hist l j =
        if j ∈ uch_visited inCheck l ∧ isOk j = true then
          cmhAdd (hist j) (Int.tdiv bonus (1 + 3 * (if j = 3 then 1 else 0)))
        else hist j := by
  intro l
  induction l with
  | nil =>
    intro _ hist j
    have hv : uch_visited inCheck ([] : List Nat) = [] := by
      unfold uch_visited; split_ifs <;> rfl
    simp [uch_loop, hv]
  | cons i rest ih =>
    intro hnd hist j
    have hnd1 : rest.Nodup := (List.nodup_cons.mp hnd).2
    have hni : i ∉ rest := (List.nodup_cons.mp hnd).1
    unfold uch_loop
    by_cases hbrk : inCheck = true ∧ i > 2
    · rw [if_pos hbrk]
      have hv : uch_visited inCheck (i :: rest) = [] := by
        unfold uch_visited
        rcases hbrk with ⟨h1, h2⟩
        rw [if_pos h1]
        simp only [List.takeWhile]
        have : ¬(i ≤ 2) := by omega
        simp [this]
      simp [hv]
    · rw [if_neg hbrk, ih hnd1 (uch_step isOk bonus hist i) j,
        uch_visited_cons inCheck i rest hbrk]
      by_cases hjr : j ∈ uch_visited inCheck rest
      · have hji : j ≠ i := by
          intro he
          exact hni (he ▸ uch_visited_subset inCheck rest j hjr)
        have hstep : uch_step isOk bonus hist i j = hist j := by
          unfold uch_step
          by_cases h1 : isOk i = true
          · rw [if_pos h1]
            exact Function.update_noteq hji _ hist
          · rw [if_neg h1]
        by_cases hok : isOk j = true
        · have hm1 : j ∈ uch_visited inCheck rest ∧ isOk j = true := ⟨hjr, hok⟩
          have hm2 : j ∈ i :: uch_visited inCheck rest ∧ isOk j = true :=
            ⟨List.mem_cons_of_mem i hjr, hok⟩
          rw [if_pos hm1, if_pos hm2, hstep]
        · have hm1 : ¬(j ∈ uch_visited inCheck rest ∧ isOk j = true) := fun hc => hok hc.2
          have hm2 : ¬(j ∈ i :: uch_visited inCheck rest ∧ isOk j = true) := fun hc => hok hc.2
          rw [if_neg hm1, if_neg hm2, hstep]
      · by_cases hji : j = i
        · subst hji
          have hm1 : ¬(j ∈ uch_visited inCheck rest ∧ isOk j = true) := fun hc => hjr hc.1
          rw [if_neg hm1]
          by_cases hok : isOk j = true
          · have hm2 : j ∈ j :: uch_visited inCheck rest ∧ isOk j = true :=
              ⟨List.mem_cons_self j _, hok⟩
            rw [if_pos hm2]
            unfold uch_step
            rw [if_pos hok, Function.update_same]
          · have hm2 : ¬(j ∈ j :: uch_visited inCheck rest ∧ isOk j = true) := fun hc => hok hc.2
            rw [if_neg hm2]
            unfold uch_step
            rw [if_neg hok]
        · have hstep : uch_step isOk bonus hist i j = hist j := by
            unfold uch_step
            by_cases h1 : isOk i = true
            · rw [if_pos h1]
              exact Function.update_noteq hji _ hist
            · rw [if_neg h1]
          have hm1 : ¬(j ∈ uch_visited inCheck rest ∧ isOk j = true) := fun hc => hjr hc.1
          have hm2 : ¬(j ∈ i :: uch_visited inCheck rest ∧ isOk j = true) := by
            intro hc
            rcases List.mem_cons.mp hc.1 with h1 | h1
            · exact hji h1
            · exact hjr h1
          rw [if_neg hm1, if_neg hm2, hstep]

/-- C9 (counterexample): the claim fails as stated.  When the side to move is
in check, the loop breaks after offset 2: with every stack move real and
`bonus = 100`, the table of frame `ss - 3` keeps its value `0` although the
claim demands the update `cmhAdd 0 (100/4) = 25`; without check the same
entry is updated to `25`. -/
theorem C9_counterexample :
    update_continuation_histories true (fun _ => true) 100 (fun _ => 0) 3 = 0 ∧
    cmhAdd 0 (Int.tdiv 100 4) = 25 ∧ (0 : Int) ≠ 25 ∧
    update_continuation_histories false (fun _ => true) 100 (fun _ => 0) 3 = 25 := by
  refine ⟨by decide, by decide, by decide, by decide⟩

/-- C9 (amended): `update_continuation_histories` updates precisely the
tables of the frames `ss - i` for `i ∈ {1, 2, 3, 4, 6}` whose current move is
a real move when the side to move is not in check, and only those with
`i ∈ {1, 2}` when in check (the loop breaks before offset 3); a frame at any
other offset — in particular `ss - 5` — is never touched.  Each updated entry
receives `bonus / (1 + 3·(i = 3))` through the saturating add. -/
theorem C9_uch_amended (inCheck : Bool) (isOk : Nat → Bool) (bonus : Int)
    (hist : Nat → Int) (j : Nat) :
    update_continuation_histories inCheck isOk bonus hist j =
      (if j ∈ uch_offsets inCheck isOk then
        cmhAdd (hist j) (Int.tdiv bonus (1 + 3 * (if j = 3 then 1 else 0)))
      else hist j) ∧
    (inCheck = false → uch_offsets inCheck isOk = [1, 2, 3, 4, 6].filter isOk) ∧
    (inCheck = true → uch_offsets inCheck isOk = [1, 2].filter isOk) ∧
    5 ∉ uch_offsets inCheck isOk := by
  have hmain := uch_loop_apply inCheck isOk bonus [1, 2, 3, 4, 6] (by decide) hist j
  refine ⟨?_, fun h => ?_, fun h => ?_, ?_⟩
  · rw [update_continuation_histories, hmain]
    have hmem : (j ∈ uch_visited inCheck [1, 2, 3, 4, 6] ∧ isOk j = true) ↔
        j ∈ uch_offsets inCheck isOk := by
      unfold uch_offsets
      rw [List.mem_filter]
    split_ifs with h1 h2 h2 <;> tauto
  · subst h
    unfold uch_offsets uch_visited
    simp
  · subst h
    unfold uch_offsets uch_visited
    simp [List.takeWhile]
  · intro hcon
    have h5 : (5 : Nat) ∈ uch_visited inCheck [1, 2, 3, 4, 6] := by
      unfold uch_offsets at hcon
      exact (List.mem_filter.mp hcon).1
    have := uch_visited_subset inCheck [1, 2, 3, 4, 6] 5 h5
    simp at this

/-- C9 (witness): the amended update behavior at offset `1` with a concrete
in-check stack where every move is real: the entry of frame `ss - 1` becomes
`cmhAdd 7 100 = 107`. -/
theorem C9_uch_amended_witness :
    update_continuation_histories true (fun _ => true) 100 (fun _ => 7) 1 =
      cmhAdd 7 (Int.tdiv 100 1) ∧
    cmhAdd 7 (Int.tdiv 100 1) = 107 := by
  have h := C9_uch_amended true (fun _ => true) 100 (fun _ => 7) 1
  refine ⟨?_, by decide⟩
  rw [h.1]
  have hmem : (1 : Nat) ∈ uch_offsets true (fun _ => true) := by decide
  rw [if_pos hmem]
  decide

/-! ## Board data model

Modelled from the spec where `types.h` is missing: `Color`, `PieceType`,
`Piece = (Color, PieceType) ∪ {Empty}` (here `Option (Color × PieceType)`),
squares as integers in `[0, 63]` with `file = s % 8`, `rank = s / 8`, and
`Move` as the tuple (from, to, promotion piece, type) with the two sentinels
*none* (`from = to = 0`) and *null* (`from = to = 1`); the promotion-piece
field of a non-promotion move holds the encoding default `knight`. -/

inductive Color where
  | white
  | black
deriving DecidableEq

/-- The color toggle `~c`. -/
def Color.other : Color → Color
  | .white => .black
  | .black => .white

inductive PieceType where
  | pawn
  | knight
  | bishop
  | rook
  | queen
  | king
deriving DecidableEq

inductive MoveType where
  | NORMAL
  | PROMOTION
  | EN_PASSANT
  | CASTLING
deriving DecidableEq

structure Move where
  fromSq : Fin 64
  toSq : Fin 64
  promo : PieceType
  mtype : MoveType
deriving DecidableEq

/-- `Move::none()`. -/
def Move.none : Move := ⟨0, 0, PieceType.knight, MoveType.NORMAL⟩

/-- `Move::null()`. -/
def Move.null : Move := ⟨1, 1, PieceType.knight, MoveType.NORMAL⟩

/-- `Move::is_ok()`: neither the none nor the null sentinel. -/
def Move.is_ok (m : Move) : Bool :=
  decide (m ≠ Move.none) && decide (m ≠ Move.null)

/-- `square_bb(s) = 1ULL << s` as a `Nat` bitboard. -/
def sqBB (s : Fin 64) : Nat := 2 ^ s.val

/-- The position state touched by the claims: the board array and the
incrementally maintained bitboards and piece counts of `position.h`.  The
`byTypeBB[ALL_PIECES]` plane of the source array is the field `byTypeAll`;
`pieceCountAll c` is `pieceCount[make_piece(c, ALL_PIECES)]`.  The PSQT
accumulator `psq` is omitted (the PSQT tables are external data not among
the sources and no claim mentions them). -/
structure Position where
  board : Fin 64 → Option (Color × PieceType)
  byTypeAll : Nat
  byTypeBB : PieceType → Nat
  byColorBB : Color → Nat
  pieceCount : Color → PieceType → Nat
  pieceCountAll : Color → Nat

/-- `Position::empty(s)`: the board square holds `NO_PIECE`. -/
def Position.emptyOn (p : Position) (s : Fin 64) : Bool := (p.board s).isNone

/-! ## C10: `Position::capture` and `Position::capture_stage`

From the position part, lines 368-378. -/

/-- `Position::capture(m)`:
`(!empty(to_sq(m)) && type_of(m) != CASTLING) || type_of(m) == EN_PASSANT`. -/
def Position.capture (p : Position) (m : Move) : Bool :=
  (!(p.emptyOn m.toSq) && !(decide (m.mtype = MoveType.CASTLING))) ||
    decide (m.mtype = MoveType.EN_PASSANT)

/-- `Position::capture_stage(m)`: `capture(m) || promotion_type(m) == QUEEN`. -/
def Position.capture_stage (p : Position) (m : Move) : Bool :=
  p.capture m || decide (m.promo = PieceType.queen)

/-- C10 (confirmed): a castling move — encoded with the destination square
holding the own rook of the moving side, hence a non-empty destination — is
neither a capture nor a capture-stage move (its promotion-piece bits hold
the encoding default `knight`); and for every move, `capture_stage` holds
exactly when `capture` holds or the promotion piece is a queen. -/
theorem C10_castling_capture (p : Position) (m : Move)
    (hc : m.mtype = MoveType.CASTLING) (hpromo : m.promo = PieceType.knight)
    (_hocc : (p.board m.toSq).isSome = true) :
    p.capture m = false ∧ p.capture_stage m = false ∧
    (∀ (q : Position) (m2 : Move),
      q.capture_stage m2 = true ↔ (q.capture m2 = true ∨ m2.promo = PieceType.queen)) := by
  refine ⟨?_, ?_, ?_⟩
  · unfold Position.capture
    rw [hc]
    simp
  · unfold Position.capture_stage Position.capture
    rw [hc, hpromo]
    simp
  · intro q m2
    unfold Position.capture_stage
    simp

/-- C10 (witness): a concrete white short-castling move `e1h1` (king captures
own rook) on a board with the rook on `h1`: not a capture, not capture-stage. -/
theorem C10_castling_capture_witness :
    Position.capture
      ⟨fun s => if s = (7 : Fin 64) then some (Color.white, PieceType.rook) else Option.none,
        0, fun _ => 0, fun _ => 0, fun _ _ => 0, fun _ => 0⟩
      ⟨4, 7, PieceType.knight, MoveType.CASTLING⟩ = false := by
  have h := C10_castling_capture
    ⟨fun s => if s = (7 : Fin 64) then some (Color.white, PieceType.rook) else Option.none,
      0, fun _ => 0, fun _ => 0, fun _ _ => 0, fun _ => 0⟩
    ⟨4, 7, PieceType.knight, MoveType.CASTLING⟩ rfl rfl (by decide)
  exact h.1

/-! ## C8: `UCI::move`

From `uci.cpp` lines 679-703 (and `UCI::square` just above it). -/

/-- `file_of(s)` (modelled from the spec, `types.h` missing). -/
def file_of (s : Fin 64) : Fin 8 := ⟨s.val % 8, by omega⟩

/-- `rank_of(s)` (modelled from the spec, `types.h` missing). -/
def rank_of (s : Fin 64) : Fin 8 := ⟨s.val / 8, by omega⟩

/-- `make_square(f, r)` (modelled from the spec, `types.h` missing). -/
def make_square (f r : Fin 8) : Fin 64 := ⟨r.val * 8 + f.val, by omega⟩

/-- `UCI::square(s)`: the two-character coordinate string. -/
def squareStr (s : Fin 64) : String :=
  String.mk [Char.ofNat (Char.toNat 'a' + (file_of s).val),
    Char.ofNat (Char.toNat '1' + (rank_of s).val)]

/-- The index of a piece type in the promotion-letter string `" pnbrqk"`. -/
def pieceIdx : PieceType → Nat
  | .pawn => 1
  | .knight => 2
  | .bishop => 3
  | .rook => 4
  | .queen => 5
  | .king => 6

/-- The promotion letter `" pnbrqk"[promotion_type(m)]`. -/
def promoChar (pt : PieceType) : Char := (" pnbrqk".toList).getD (pieceIdx pt) ' '

/-- `UCI::move(m, chess960)` from `uci.cpp`: sentinels first; for a castling
move in standard mode the printed destination is file G or C on the rank of
the king; a promotion appends the piece letter. -/
def UCI_move (m : Move) (chess960 : Bool) : String :=
  if m = Move.none then "(none)"
  else if m = Move.null then "0000"
  else
    let t := if m.mtype = MoveType.CASTLING ∧ chess960 = false then
        make_square (if m.toSq > m.fromSq then (6 : Fin 8) else (2 : Fin 8))
          (rank_of m.fromSq)
      else m.toSq
    let str := squareStr m.fromSq ++ squareStr t
    if m.mtype = MoveType.PROMOTION then str.push (promoChar m.promo) else str

theorem file_of_make_square (f r : Fin 8) : file_of (make_square f r) = f := by
  apply Fin.ext
  have hf := f.isLt
  simp only [file_of, make_square]
  omega

theorem rank_of_make_square (f r : Fin 8) : rank_of (make_square f r) = r := by
  apply Fin.ext
  have hf := f.isLt
  simp only [rank_of, make_square]
  omega

/-- C8 (confirmed): `UCI::move` renders the none sentinel as `"(none)"` and
the null move as `"0000"`; a castling move with `chess960 = false` is printed
with destination file G (when the rook square is above the king square:
short) or file C (long) on the rank of the king, while with
`chess960 = true` the printed destination is the rook square `to_sq(m)`
itself; a promotion appends the promotion-piece letter to the coordinate
pair. -/
theorem C8_uci_move (m : Move) (chess960 : Bool) :
    (∀ b : Bool, UCI_move Move.none b = "(none)" ∧ UCI_move Move.null b = "0000") ∧
    (m.mtype = MoveType.CASTLING →
      UCI_move m false = squareStr m.fromSq ++
        squareStr (make_square (if m.toSq > m.fromSq then (6 : Fin 8) else (2 : Fin 8))
          (rank_of m.fromSq)) ∧
      file_of (make_square (if m.toSq > m.fromSq then (6 : Fin 8) else (2 : Fin 8))
          (rank_of m.fromSq)) = (if m.toSq > m.fromSq then (6 : Fin 8) else (2 : Fin 8)) ∧
      rank_of (make_square (if m.toSq > m.fromSq then (6 : Fin 8) else (2 : Fin 8))
          (rank_of m.fromSq)) = rank_of m.fromSq ∧
      UCI_move m true = squareStr m.fromSq ++ squareStr m.toSq) ∧
    (m.mtype = MoveType.PROMOTION →
      UCI_move m chess960 =
        (squareStr m.fromSq ++ squareStr m.toSq).push (promoChar m.promo)) := by
  refine ⟨fun b => by cases b <;> exact ⟨by decide, by decide⟩, fun hc => ?_, fun hp => ?_⟩
  · have hne1 : m ≠ Move.none := by
      intro h
      rw [h] at hc
      exact absurd hc (by decide)
    have hne2 : m ≠ Move.null := by
      intro h
      rw [h] at hc
      exact absurd hc (by decide)
    have hnp : ¬(m.mtype = MoveType.PROMOTION) := by
      rw [hc]
      decide
    refine ⟨?_, file_of_make_square _ _, rank_of_make_square _ _, ?_⟩
    · have hcond : m.mtype = MoveType.CASTLING ∧ (false : Bool) = false := ⟨hc, rfl⟩
      unfold UCI_move
      rw [if_neg hne1, if_neg hne2, if_pos hcond, if_neg hnp]
    · have hcond : ¬(m.mtype = MoveType.CASTLING ∧ (true : Bool) = false) := by
        intro hcon
        exact absurd hcon.2 (by decide)
      unfold UCI_move
      rw [if_neg hne1, if_neg hne2, if_neg hcond, if_neg hnp]
  · have hne1 : m ≠ Move.none := by
      intro h
      rw [h] at hp
      exact absurd hp (by decide)
    have hne2 : m ≠ Move.null := by
      intro h
      rw [h] at hp
      exact absurd hp (by decide)
    have hcond : ¬(m.mtype = MoveType.CASTLING ∧ chess960 = false) := by
      intro hcon
      rw [hp] at hcon
      exact absurd hcon.1 (by decide)
    unfold UCI_move
    rw [if_neg hne1, if_neg hne2, if_neg hcond, if_pos hp]

/-- C8 (witness): concrete moves — the white short-castling move `e1h1`
prints as `e1g1` in standard mode and as `e1h1` in variant mode, and the
promotion `a7a8` to a queen prints as `a7a8q`. -/
theorem C8_uci_move_witness :
    UCI_move ⟨4, 7, PieceType.knight, MoveType.CASTLING⟩ false = "e1g1" ∧
    UCI_move ⟨4, 7, PieceType.knight, MoveType.CASTLING⟩ true = "e1h1" ∧
    UCI_move ⟨48, 56, PieceType.queen, MoveType.PROMOTION⟩ true = "a7a8q" := by
  have h1 := C8_uci_move ⟨4, 7, PieceType.knight, MoveType.CASTLING⟩ false
  have h2 := C8_uci_move ⟨48, 56, PieceType.queen, MoveType.PROMOTION⟩ true
  refine ⟨?_, ?_, ?_⟩
  · rw [(h1.2.1 rfl).1]
    decide
  · rw [(h1.2.1 rfl).2.2.2]
    decide
  · rw [h2.2.2 rfl]
    decide

/-! ## C6: bitboard invariants of `put_piece` / `remove_piece` / `move_piece`

From the position part, lines 384-416.  The source computes
`byTypeBB[ALL_PIECES] |= byTypeBB[type_of(pc)] |= s` (inner assignment
first); the structure literals below inline the updated type plane. -/

/-- `Position::put_piece(pc, s)` with `pc = (c, pt)`. -/
def put_piece (p : Position) (c : Color) (pt : PieceType) (s : Fin 64) : Position where
  board := Function.update p.board s (some (c, pt))
  byTypeAll := p.byTypeAll ||| (p.byTypeBB pt ||| sqBB s)
  byTypeBB := Function.update p.byTypeBB pt (p.byTypeBB pt ||| sqBB s)
  byColorBB := Function.update p.byColorBB c (p.byColorBB c ||| sqBB s)
  pieceCount := fun c2 pt2 =>
    if c2 = c ∧ pt2 = pt then p.pieceCount c2 pt2 + 1 else p.pieceCount c2 pt2
  pieceCountAll := Function.update p.pieceCountAll c (p.pieceCountAll c + 1)

/-- `Position::remove_piece(s)`: reads `pc = board[s]` and xors the square
out of the three bitboard planes.  On an empty square (never reached under
the documented precondition) the position is returned unchanged. -/
def remove_piece (p : Position) (s : Fin 64) : Position :=
  match p.board s with
  | Option.none => p
  | some (c, pt) =>
    { board := Function.update p.board s Option.none
      byTypeAll := p.byTypeAll ^^^ sqBB s
      byTypeBB := Function.update p.byTypeBB pt (p.byTypeBB pt ^^^ sqBB s)
      byColorBB := Function.update p.byColorBB c (p.byColorBB c ^^^ sqBB s)
      pieceCount := fun c2 pt2 =>
        if c2 = c ∧ pt2 = pt then p.pieceCount c2 pt2 - 1 else p.pieceCount c2 pt2
      pieceCountAll := Function.update p.pieceCountAll c (p.pieceCountAll c - 1) }

/-- `Position::move_piece(from, to)`: xors `fromTo = from | to` into the
three planes and moves the board entry.  On an empty source square (never
reached under the documented precondition) the position is returned
unchanged. -/
def move_piece (p : Position) (f t : Fin 64) : Position :=
  match p.board f with
  | Option.none => p
  | some (c, pt) =>
    { board := Function.update (Function.update p.board f Option.none) t (some (c, pt))
      byTypeAll := p.byTypeAll ^^^ (sqBB f ||| sqBB t)
      byTypeBB := Function.update p.byTypeBB pt (p.byTypeBB pt ^^^ (sqBB f ||| sqBB t))
      byColorBB := Function.update p.byColorBB c (p.byColorBB c ^^^ (sqBB f ||| sqBB t))
      pieceCount := p.pieceCount
      pieceCountAll := p.pieceCountAll }

/-- The union of the six per-piece-type planes. -/
def typesUnion (p : Position) : Nat :=
  p.byTypeBB PieceType.pawn ||| p.byTypeBB PieceType.knight |||
    p.byTypeBB PieceType.bishop ||| p.byTypeBB PieceType.rook |||
    p.byTypeBB PieceType.queen ||| p.byTypeBB PieceType.king

/-- The invariant named by the claim: `byTypeBB[ALL_PIECES] ==
byColorBB[WHITE] | byColorBB[BLACK]`, the per-piece-type planes are pairwise
disjoint, and their union is `byTypeBB[ALL_PIECES]`. -/
def InvBB (p : Position) : Prop :=
  p.byTypeAll = p.byColorBB Color.white ||| p.byColorBB Color.black ∧
  (∀ t u : PieceType, t ≠ u → p.byTypeBB t &&& p.byTypeBB u = 0) ∧
  typesUnion p = p.byTypeAll

instance (p : Position) : Decidable (InvBB p) := by
  unfold InvBB
  have : DecidablePred fun t : PieceType =>
      ∀ u : PieceType, t ≠ u → p.byTypeBB t &&& p.byTypeBB u = 0 := by
    intro t
    have : ∀ u : PieceType, Decidable (t ≠ u → p.byTypeBB t &&& p.byTypeBB u = 0) := by
      intro u; infer_instance
    exact decidable_of_iff (∀ u ∈ [PieceType.pawn, PieceType.knight, PieceType.bishop,
      PieceType.rook, PieceType.queen, PieceType.king],
        t ≠ u → p.byTypeBB t &&& p.byTypeBB u = 0)
      ⟨fun h u => h u (by cases u <;> decide), fun h u _ => h u⟩
  have hd : Decidable (∀ t u : PieceType, t ≠ u → p.byTypeBB t &&& p.byTypeBB u = 0) :=
    decidable_of_iff (∀ t ∈ [PieceType.pawn, PieceType.knight, PieceType.bishop,
      PieceType.rook, PieceType.queen, PieceType.king],
        ∀ u : PieceType, t ≠ u → p.byTypeBB t &&& p.byTypeBB u = 0)
      ⟨fun h t => h t (by cases t <;> decide), fun h t _ => h t⟩
  exact instDecidableAnd

theorem testBit_sqBB (s : Fin 64) (i : Nat) :
    (sqBB s).testBit i = decide (s.val = i) := Nat.testBit_two_pow

theorem land_zero_iff (x y : Nat) :
    x &&& y = 0 ↔ ∀ i, ¬(x.testBit i = true ∧ y.testBit i = true) := by
  constructor
  · intro h i hcon
    have h2 : (x &&& y).testBit i = Nat.testBit 0 i := by rw [h]
    rw [Nat.testBit_land, Nat.zero_testBit, hcon.1, hcon.2] at h2
    exact absurd h2 (by decide)
  · intro h
    apply Nat.eq_of_testBit_eq
    intro i
    rw [Nat.testBit_land, Nat.zero_testBit]
    cases hx : x.testBit i
    · rfl
    · cases hy : y.testBit i
      · rfl
      · exact absurd ⟨hx, hy⟩ (h i)

theorem type_subset_all (p : Position) (h : InvBB p) (t : PieceType) (i : Nat)
    (hb : (p.byTypeBB t).testBit i = true) : p.byTypeAll.testBit i = true := by
  have h2 : (typesUnion p).testBit i = p.byTypeAll.testBit i := by rw [h.2.2]
  rw [← h2]
  unfold typesUnion
  simp only [Nat.testBit_lor]
  cases t <;> simp [hb]

theorem color_subset_all (p : Position) (h : InvBB p) (c : Color) (i : Nat)
    (hb : (p.byColorBB c).testBit i = true) : p.byTypeAll.testBit i = true := by
  have h2 : p.byTypeAll.testBit i =
      ((p.byColorBB Color.white).testBit i || (p.byColorBB Color.black).testBit i) := by
    rw [h.1, Nat.testBit_lor]
  rw [h2]
  cases c <;> simp [hb]

/-- A pointwise description of `Function.update` used to unfold the plane
updates. -/
theorem update_apply_ite {α : Type} [DecidableEq α] (f : α → Nat) (a : α) (v : Nat)
    (x : α) : Function.update f a v x = if x = a then v else f x := by
  by_cases h : x = a
  · subst h
    rw [Function.update_same, if_pos rfl]
  · rw [Function.update_noteq h, if_neg h]

/-- Pointwise behavior of a plane update at a bit where the new value agrees
with the old plane. -/
theorem update_bit_eq {α : Type} [DecidableEq α] (f : α → Nat) (a x : α) (v : Nat)
    (i : Nat) (hsame : v.testBit i = (f a).testBit i) :
    (Function.update f a v x).testBit i = (f x).testBit i := by
  by_cases h : x = a
  · subst h
    rw [Function.update_same, hsame]
  · rw [Function.update_noteq h]

theorem put_piece_inv (p : Position) (c : Color) (pt : PieceType) (s : Fin 64)
    (hinv : InvBB p) (hempty : p.byTypeAll.testBit s.val = false) :
    InvBB (put_piece p c pt s) := by
  obtain ⟨hall, hdisj, huni⟩ := hinv
  have hsub := fun t i hb => type_subset_all p ⟨hall, hdisj, huni⟩ t i hb
  have hcsub := fun c2 i hb => color_subset_all p ⟨hall, hdisj, huni⟩ c2 i hb
  have hsqt : (sqBB s).testBit s.val = true := by
    rw [testBit_sqBB]
    exact decide_eq_true rfl
  have hTz : ∀ u : PieceType, (p.byTypeBB u).testBit s.val = false := by
    intro u
    cases hx : (p.byTypeBB u).testBit s.val
    · rfl
    · rw [hsub u s.val hx] at hempty
      exact absurd hempty (by decide)
  have hCz : ∀ c2 : Color, (p.byColorBB c2).testBit s.val = false := by
    intro c2
    cases hx : (p.byColorBB c2).testBit s.val
    · rfl
    · rw [hcsub c2 s.val hx] at hempty
      exact absurd hempty (by decide)
  refine ⟨?_, ?_, ?_⟩
  · show p.byTypeAll ||| (p.byTypeBB pt ||| sqBB s) =
      Function.update p.byColorBB c (p.byColorBB c ||| sqBB s) Color.white |||
      Function.update p.byColorBB c (p.byColorBB c ||| sqBB s) Color.black
    apply Nat.eq_of_testBit_eq
    intro i
    by_cases hi : s.val = i
    · subst hi
      cases c <;>
        simp only [update_apply_ite, reduceCtorEq, reduceIte, Nat.testBit_lor,
          hsqt, hTz, hCz, hempty] <;> decide
    · have hsqf : (sqBB s).testBit i = false := by
        rw [testBit_sqBB]
        exact decide_eq_false hi
      have hsame : (p.byColorBB c ||| sqBB s).testBit i = (p.byColorBB c).testBit i := by
        rw [Nat.testBit_lor, hsqf, Bool.or_false]
      simp only [Nat.testBit_lor]
      rw [update_bit_eq p.byColorBB c Color.white _ i hsame,
        update_bit_eq p.byColorBB c Color.black _ i hsame, hsqf, Bool.or_false]
      have h1 : p.byTypeAll.testBit i =
          ((p.byColorBB Color.white).testBit i || (p.byColorBB Color.black).testBit i) := by
        rw [hall, Nat.testBit_lor]
      have h2 := hsub pt i
      rw [h1] at h2 ⊢
      cases hb : (p.byTypeBB pt).testBit i
      · rw [Bool.or_false]
      · rw [h2 hb]
        decide
  · intro t u htu
    show Function.update p.byTypeBB pt (p.byTypeBB pt ||| sqBB s) t &&&
      Function.update p.byTypeBB pt (p.byTypeBB pt ||| sqBB s) u = 0
    rw [update_apply_ite, update_apply_ite, land_zero_iff]
    intro i hcon
    by_cases ht : t = pt <;> by_cases hu : u = pt
    · exact htu (ht.trans hu.symm)
    · rw [if_pos ht, if_neg hu] at hcon
      obtain ⟨h1, h2⟩ := hcon
      rw [Nat.testBit_lor, Bool.or_eq_true] at h1
      rcases h1 with h1 | h1
      · exact (land_zero_iff _ _).mp (hdisj pt u fun he => htu (ht.trans he)) i ⟨h1, h2⟩
      · rw [testBit_sqBB] at h1
        have hsi : s.val = i := of_decide_eq_true h1
        subst hsi
        rw [hTz u] at h2
        exact absurd h2 (by decide)
    · rw [if_neg ht, if_pos hu] at hcon
      obtain ⟨h1, h2⟩ := hcon
      rw [Nat.testBit_lor, Bool.or_eq_true] at h2
      rcases h2 with h2 | h2
      · exact (land_zero_iff _ _).mp (hdisj t pt fun he => htu (he.trans hu.symm)) i ⟨h1, h2⟩
      · rw [testBit_sqBB] at h2
        have hsi : s.val = i := of_decide_eq_true h2
        subst hsi
        rw [hTz t] at h1
        exact absurd h1 (by decide)
    · rw [if_neg ht, if_neg hu] at hcon
      exact (land_zero_iff _ _).mp (hdisj t u htu) i hcon
  · show Function.update p.byTypeBB pt (p.byTypeBB pt ||| sqBB s) PieceType.pawn |||
      Function.update p.byTypeBB pt (p.byTypeBB pt ||| sqBB s) PieceType.knight |||
      Function.update p.byTypeBB pt (p.byTypeBB pt ||| sqBB s) PieceType.bishop |||
      Function.update p.byTypeBB pt (p.byTypeBB pt ||| sqBB s) PieceType.rook |||
      Function.update p.byTypeBB pt (p.byTypeBB pt ||| sqBB s) PieceType.queen |||
      Function.update p.byTypeBB pt (p.byTypeBB pt ||| sqBB s) PieceType.king =
      p.byTypeAll ||| (p.byTypeBB pt ||| sqBB s)
    apply Nat.eq_of_testBit_eq
    intro i
    by_cases hi : s.val = i
    · subst hi
      cases pt <;>
        simp only [update_apply_ite, reduceCtorEq, reduceIte, Nat.testBit_lor,
          hsqt, hTz, hempty] <;> decide
    · have hsqf : (sqBB s).testBit i = false := by
        rw [testBit_sqBB]
        exact decide_eq_false hi
      have hsame : (p.byTypeBB pt ||| sqBB s).testBit i = (p.byTypeBB pt).testBit i := by
        rw [Nat.testBit_lor, hsqf, Bool.or_false]
      simp only [Nat.testBit_lor]
      rw [update_bit_eq p.byTypeBB pt PieceType.pawn _ i hsame,
        update_bit_eq p.byTypeBB pt PieceType.knight _ i hsame,
        update_bit_eq p.byTypeBB pt PieceType.bishop _ i hsame,
        update_bit_eq p.byTypeBB pt PieceType.rook _ i hsame,
        update_bit_eq p.byTypeBB pt PieceType.queen _ i hsame,
        update_bit_eq p.byTypeBB pt PieceType.king _ i hsame,
        hsqf, Bool.or_false]
      have hunibit : ((p.byTypeBB PieceType.pawn).testBit i ||
          (p.byTypeBB PieceType.knight).testBit i ||
          (p.byTypeBB PieceType.bishop).testBit i ||
          (p.byTypeBB PieceType.rook).testBit i ||
          (p.byTypeBB PieceType.queen).testBit i ||
          (p.byTypeBB PieceType.king).testBit i) = p.byTypeAll.testBit i := by
        rw [← huni]
        unfold typesUnion
        simp only [Nat.testBit_lor]
      rw [hunibit]
      have h2 := hsub pt i
      cases hb : (p.byTypeBB pt).testBit i
      · rw [Bool.or_false]
      · rw [h2 hb]
        decide

theorem remove_piece_inv (p : Position) (s : Fin 64) (c : Color) (pt : PieceType)
    (hb : p.board s = some (c, pt)) (hinv : InvBB p)
    (hcd : p.byColorBB Color.white &&& p.byColorBB Color.black = 0)
    (htb : (p.byTypeBB pt).testBit s.val = true)
    (hcb : (p.byColorBB c).testBit s.val = true) :
    InvBB (remove_piece p s) := by
  obtain ⟨hall, hdisj, huni⟩ := hinv
  have hsub := fun t i hbt => type_subset_all p ⟨hall, hdisj, huni⟩ t i hbt
  have halls : p.byTypeAll.testBit s.val = true := hsub pt s.val htb
  have hsqt : (sqBB s).testBit s.val = true := by
    rw [testBit_sqBB]
    exact decide_eq_true rfl
  have hTv : ∀ u : PieceType, (p.byTypeBB u).testBit s.val = decide (u = pt) := by
    intro u
    by_cases h : u = pt
    · rw [h, decide_eq_true rfl]
      exact htb
    · rw [decide_eq_false h]
      cases hx : (p.byTypeBB u).testBit s.val
      · rfl
      · exact False.elim ((land_zero_iff _ _).mp (hdisj u pt h) s.val ⟨hx, htb⟩)
  have hCv : ∀ c2 : Color, (p.byColorBB c2).testBit s.val = decide (c2 = c) := by
    intro c2
    by_cases h : c2 = c
    · rw [h, decide_eq_true rfl]
      exact hcb
    · rw [decide_eq_false h]
      cases hx : (p.byColorBB c2).testBit s.val
      · rfl
      · exfalso
        have hdcd := (land_zero_iff _ _).mp hcd s.val
        cases c <;> cases c2 <;> simp_all
  unfold remove_piece
  rw [hb]
  refine ⟨?_, ?_, ?_⟩
  · show p.byTypeAll ^^^ sqBB s =
      Function.update p.byColorBB c (p.byColorBB c ^^^ sqBB s) Color.white |||
      Function.update p.byColorBB c (p.byColorBB c ^^^ sqBB s) Color.black
    apply Nat.eq_of_testBit_eq
    intro i
    by_cases hi : s.val = i
    · subst hi
      cases c <;>
        simp only [update_apply_ite, reduceCtorEq, reduceIte, Nat.testBit_lor,
          Nat.testBit_xor, hsqt, hCv, halls] <;> decide
    · have hsqf : (sqBB s).testBit i = false := by
        rw [testBit_sqBB]
        exact decide_eq_false hi
      have hsame : (p.byColorBB c ^^^ sqBB s).testBit i = (p.byColorBB c).testBit i := by
        rw [Nat.testBit_xor, hsqf, Bool.xor_false]
      rw [Nat.testBit_xor, Nat.testBit_lor,
        update_bit_eq p.byColorBB c Color.white _ i hsame,
        update_bit_eq p.byColorBB c Color.black _ i hsame,
        hsqf, Bool.xor_false, hall, Nat.testBit_lor]
  · intro t u htu
    show Function.update p.byTypeBB pt (p.byTypeBB pt ^^^ sqBB s) t &&&
      Function.update p.byTypeBB pt (p.byTypeBB pt ^^^ sqBB s) u = 0
    rw [update_apply_ite, update_apply_ite, land_zero_iff]
    intro i hcon
    have hdrop : (p.byTypeBB pt ^^^ sqBB s).testBit i = true →
        (p.byTypeBB pt).testBit i = true ∧ ¬(s.val = i) := by
      intro hv
      rw [Nat.testBit_xor, testBit_sqBB] at hv
      by_cases hsi : s.val = i
      · exfalso
        rw [decide_eq_true hsi, Bool.xor_true] at hv
        rw [← hsi, htb] at hv
        exact absurd hv (by decide)
      · rw [decide_eq_false hsi, Bool.xor_false] at hv
        exact ⟨hv, hsi⟩
    by_cases ht : t = pt <;> by_cases hu : u = pt
    · exact htu (ht.trans hu.symm)
    · rw [if_pos ht, if_neg hu] at hcon
      exact (land_zero_iff _ _).mp (hdisj pt u fun he => htu (ht.trans he)) i
        ⟨(hdrop hcon.1).1, hcon.2⟩
    · rw [if_neg ht, if_pos hu] at hcon
      exact (land_zero_iff _ _).mp (hdisj t pt fun he => htu (he.trans hu.symm)) i
        ⟨hcon.1, (hdrop hcon.2).1⟩
    · rw [if_neg ht, if_neg hu] at hcon
      exact (land_zero_iff _ _).mp (hdisj t u htu) i hcon
  · show Function.update p.byTypeBB pt (p.byTypeBB pt ^^^ sqBB s) PieceType.pawn |||
      Function.update p.byTypeBB pt (p.byTypeBB pt ^^^ sqBB s) PieceType.knight |||
      Function.update p.byTypeBB pt (p.byTypeBB pt ^^^ sqBB s) PieceType.bishop |||
      Function.update p.byTypeBB pt (p.byTypeBB pt ^^^ sqBB s) PieceType.rook |||
      Function.update p.byTypeBB pt (p.byTypeBB pt ^^^ sqBB s) PieceType.queen |||
      Function.update p.byTypeBB pt (p.byTypeBB pt ^^^ sqBB s) PieceType.king =
      p.byTypeAll ^^^ sqBB s
    apply Nat.eq_of_testBit_eq
    intro i
    by_cases hi : s.val = i
    · subst hi
      cases pt <;>
        simp only [update_apply_ite, reduceCtorEq, reduceIte, Nat.testBit_lor,
          Nat.testBit_xor, hsqt, hTv, halls] <;> decide
    · have hsqf : (sqBB s).testBit i = false := by
        rw [testBit_sqBB]
        exact decide_eq_false hi
      have hsame : (p.byTypeBB pt ^^^ sqBB s).testBit i = (p.byTypeBB pt).testBit i := by
        rw [Nat.testBit_xor, hsqf, Bool.xor_false]
      simp only [Nat.testBit_lor, Nat.testBit_xor]
      rw [update_bit_eq p.byTypeBB pt PieceType.pawn _ i hsame,
        update_bit_eq p.byTypeBB pt PieceType.knight _ i hsame,
        update_bit_eq p.byTypeBB pt PieceType.bishop _ i hsame,
        update_bit_eq p.byTypeBB pt PieceType.rook _ i hsame,
        update_bit_eq p.byTypeBB pt PieceType.queen _ i hsame,
        update_bit_eq p.byTypeBB pt PieceType.king _ i hsame,
        hsqf, Bool.xor_false, ← huni]
      unfold typesUnion
      simp only [Nat.testBit_lor]

theorem move_piece_inv (p : Position) (f t : Fin 64) (c : Color) (pt : PieceType)
    (hb : p.board f = some (c, pt)) (hft : f ≠ t) (hinv : InvBB p)
    (hcd : p.byColorBB Color.white &&& p.byColorBB Color.black = 0)
    (htb : (p.byTypeBB pt).testBit f.val = true)
    (hcb : (p.byColorBB c).testBit f.val = true)
    (hempty : p.byTypeAll.testBit t.val = false) :
    InvBB (move_piece p f t) := by
  obtain ⟨hall, hdisj, huni⟩ := hinv
  have hsub := fun u i hbt => type_subset_all p ⟨hall, hdisj, huni⟩ u i hbt
  have hcsub := fun c2 i hbt => color_subset_all p ⟨hall, hdisj, huni⟩ c2 i hbt
  have hallf : p.byTypeAll.testBit f.val = true := hsub pt f.val htb
  have hvne : f.val ≠ t.val := fun he => hft (Fin.ext he)
  have hTvF : ∀ u : PieceType, (p.byTypeBB u).testBit f.val = decide (u = pt) := by
    intro u
    by_cases h : u = pt
    · rw [h, decide_eq_true rfl]
      exact htb
    · rw [decide_eq_false h]
      cases hx : (p.byTypeBB u).testBit f.val
      · rfl
      · exact False.elim ((land_zero_iff _ _).mp (hdisj u pt h) f.val ⟨hx, htb⟩)
  have hCvF : ∀ c2 : Color, (p.byColorBB c2).testBit f.val = decide (c2 = c) := by
    intro c2
    by_cases h : c2 = c
    · rw [h, decide_eq_true rfl]
      exact hcb
    · rw [decide_eq_false h]
      cases hx : (p.byColorBB c2).testBit f.val
      · rfl
      · exfalso
        have hdcd := (land_zero_iff _ _).mp hcd f.val
        cases c <;> cases c2 <;> simp_all
  have hTvT : ∀ u : PieceType, (p.byTypeBB u).testBit t.val = false := by
    intro u
    cases hx : (p.byTypeBB u).testBit t.val
    · rfl
    · rw [hsub u t.val hx] at hempty
      exact absurd hempty (by decide)
  have hCvT : ∀ c2 : Color, (p.byColorBB c2).testBit t.val = false := by
    intro c2
    cases hx : (p.byColorBB c2).testBit t.val
    · rfl
    · rw [hcsub c2 t.val hx] at hempty
      exact absurd hempty (by decide)
  have hmaskF : (sqBB f ||| sqBB t).testBit f.val = true := by
    rw [Nat.testBit_lor, testBit_sqBB, decide_eq_true rfl]
    simp
  have hmaskT : (sqBB f ||| sqBB t).testBit t.val = true := by
    rw [Nat.testBit_lor, testBit_sqBB, testBit_sqBB, decide_eq_true rfl]
    cases hx : decide (f.val = t.val) <;> decide
  unfold move_piece
  rw [hb]
  refine ⟨?_, ?_, ?_⟩
  · show p.byTypeAll ^^^ (sqBB f ||| sqBB t) =
      Function.update p.byColorBB c (p.byColorBB c ^^^ (sqBB f ||| sqBB t)) Color.white |||
      Function.update p.byColorBB c (p.byColorBB c ^^^ (sqBB f ||| sqBB t)) Color.black
    apply Nat.eq_of_testBit_eq
    intro i
    by_cases hfi : f.val = i
    · subst hfi
      cases c <;>
        simp only [update_apply_ite, reduceCtorEq, reduceIte, Nat.testBit_lor,
          Nat.testBit_xor, hmaskF, hCvF, hallf] <;> decide
    · by_cases hti : t.val = i
      · subst hti
        cases c <;>
          simp only [update_apply_ite, reduceCtorEq, reduceIte, Nat.testBit_lor,
            Nat.testBit_xor, hmaskT, hCvT, hempty] <;> decide
      · have hmaskZ : (sqBB f ||| sqBB t).testBit i = false := by
          rw [Nat.testBit_lor, testBit_sqBB, testBit_sqBB,
            decide_eq_false hfi, decide_eq_false hti]
          decide
        have hsame : (p.byColorBB c ^^^ (sqBB f ||| sqBB t)).testBit i =
            (p.byColorBB c).testBit i := by
          rw [Nat.testBit_xor, hmaskZ, Bool.xor_false]
        rw [Nat.testBit_xor, hmaskZ, Bool.xor_false, Nat.testBit_lor,
          update_bit_eq p.byColorBB c Color.white _ i hsame,
          update_bit_eq p.byColorBB c Color.black _ i hsame,
          hall, Nat.testBit_lor]
  · intro t2 u htu
    show Function.update p.byTypeBB pt (p.byTypeBB pt ^^^ (sqBB f ||| sqBB t)) t2 &&&
      Function.update p.byTypeBB pt (p.byTypeBB pt ^^^ (sqBB f ||| sqBB t)) u = 0
    rw [update_apply_ite, update_apply_ite, land_zero_iff]
    intro i hcon
    have hdrop : (p.byTypeBB pt ^^^ (sqBB f ||| sqBB t)).testBit i = true →
        ∀ u2 : PieceType, u2 ≠ pt → (p.byTypeBB u2).testBit i = true → False := by
      intro hv u2 hu2 hbu2
      rw [Nat.testBit_xor, Nat.testBit_lor, testBit_sqBB, testBit_sqBB] at hv
      by_cases hfi : f.val = i
      · have := hTvF u2
        rw [hfi] at this
        rw [this, decide_eq_false hu2] at hbu2
        exact absurd hbu2 (by decide)
      · by_cases hti : t.val = i
        · have := hTvT u2
          rw [hti] at this
          rw [this] at hbu2
          exact absurd hbu2 (by decide)
        · rw [decide_eq_false hfi, decide_eq_false hti] at hv
          have hv2 : (p.byTypeBB pt).testBit i = true := by
            cases hx : (p.byTypeBB pt).testBit i
            · rw [hx] at hv
              exact absurd hv (by decide)
            · rfl
          exact (land_zero_iff _ _).mp (hdisj pt u2 (Ne.symm hu2)) i ⟨hv2, hbu2⟩
    by_cases ht2 : t2 = pt <;> by_cases hu : u = pt
    · exact htu (ht2.trans hu.symm)
    · rw [if_pos ht2, if_neg hu] at hcon
      exact hdrop hcon.1 u (fun he => htu (ht2.trans he.symm)) hcon.2
    · rw [if_neg ht2, if_pos hu] at hcon
      exact hdrop hcon.2 t2 (fun he => htu (he.trans hu.symm)) hcon.1
    · rw [if_neg ht2, if_neg hu] at hcon
      exact (land_zero_iff _ _).mp (hdisj t2 u htu) i hcon
  · show Function.update p.byTypeBB pt (p.byTypeBB pt ^^^ (sqBB f ||| sqBB t)) PieceType.pawn |||
      Function.update p.byTypeBB pt (p.byTypeBB pt ^^^ (sqBB f ||| sqBB t)) PieceType.knight |||
      Function.update p.byTypeBB pt (p.byTypeBB pt ^^^ (sqBB f ||| sqBB t)) PieceType.bishop |||
      Function.update p.byTypeBB pt (p.byTypeBB pt ^^^ (sqBB f ||| sqBB t)) PieceType.rook |||
      Function.update p.byTypeBB pt (p.byTypeBB pt ^^^ (sqBB f ||| sqBB t)) PieceType.queen |||
      Function.update p.byTypeBB pt (p.byTypeBB pt ^^^ (sqBB f ||| sqBB t)) PieceType.king =
      p.byTypeAll ^^^ (sqBB f ||| sqBB t)
    apply Nat.eq_of_testBit_eq
    intro i
    by_cases hfi : f.val = i
    · subst hfi
      cases pt <;>
        simp only [update_apply_ite, reduceCtorEq, reduceIte, Nat.testBit_lor,
          Nat.testBit_xor, hmaskF, hTvF, hallf] <;> decide
    · by_cases hti : t.val = i
      · subst hti
        cases pt <;>
          simp only [update_apply_ite, reduceCtorEq, reduceIte, Nat.testBit_lor,
            Nat.testBit_xor, hmaskT, hTvT, hempty] <;> decide
      · have hmaskZ : (sqBB f ||| sqBB t).testBit i = false := by
          rw [Nat.testBit_lor, testBit_sqBB, testBit_sqBB,
            decide_eq_false hfi, decide_eq_false hti]
          decide
        have hsame : (p.byTypeBB pt ^^^ (sqBB f ||| sqBB t)).testBit i =
            (p.byTypeBB pt).testBit i := by
          rw [Nat.testBit_xor, hmaskZ, Bool.xor_false]
        rw [Nat.testBit_xor, hmaskZ, Bool.xor_false]
        simp only [Nat.testBit_lor]
        rw [update_bit_eq p.byTypeBB pt PieceType.pawn _ i hsame,
          update_bit_eq p.byTypeBB pt PieceType.knight _ i hsame,
          update_bit_eq p.byTypeBB pt PieceType.bishop _ i hsame,
          update_bit_eq p.byTypeBB pt PieceType.rook _ i hsame,
          update_bit_eq p.byTypeBB pt PieceType.queen _ i hsame,
          update_bit_eq p.byTypeBB pt PieceType.king _ i hsame, ← huni]
        unfold typesUnion
        simp only [Nat.testBit_lor]


/-- C6 (confirmed): the invariant `byTypeBB[ALL_PIECES] == byColorBB[WHITE] |
byColorBB[BLACK]` together with the pairwise disjointness of the
per-piece-type planes and their union equalling `byTypeBB[ALL_PIECES]` is
preserved by `put_piece` onto an empty square, by `remove_piece` of an
occupied square, and by `move_piece` from an occupied square to an empty
square (occupancy stated through the board array and the bitboard bits of
the piece found there; the two color planes are assumed disjoint, as they
are in every well-formed position). -/
theorem C6_bitboard_invariants (p : Position)
    (hinv : InvBB p)
    (hcd : p.byColorBB Color.white &&& p.byColorBB Color.black = 0) :
    (∀ (c : Color) (pt : PieceType) (s : Fin 64),
      p.byTypeAll.testBit s.val = false → InvBB (put_piece p c pt s)) ∧
    (∀ (s : Fin 64) (c : Color) (pt : PieceType),
      p.board s = some (c, pt) →
      (p.byTypeBB pt).testBit s.val = true →
      (p.byColorBB c).testBit s.val = true →
      InvBB (remove_piece p s)) ∧
    (∀ (f t : Fin 64) (c : Color) (pt : PieceType),
      p.board f = some (c, pt) → f ≠ t →
      (p.byTypeBB pt).testBit f.val = true →
      (p.byColorBB c).testBit f.val = true →
      p.byTypeAll.testBit t.val = false →
      InvBB (move_piece p f t)) := by
  refine ⟨fun c pt s he => put_piece_inv p c pt s hinv he,
    fun s c pt hb h1 h2 => remove_piece_inv p s c pt hb hinv hcd h1 h2,
    fun f t c pt hb hft h1 h2 h3 => move_piece_inv p f t c pt hb hft hinv hcd h1 h2 h3⟩

/-- A tiny concrete position used by the C6 witness: white king on e1
(square 4), black king on e8 (square 60). -/
def kingsOnly : Position where
  board := fun s =>
    if s = (4 : Fin 64) then some (Color.white, PieceType.king)
    else if s = (60 : Fin 64) then some (Color.black, PieceType.king)
    else Option.none
  byTypeAll := 2 ^ 4 ||| 2 ^ 60
  byTypeBB := fun t => if t = PieceType.king then 2 ^ 4 ||| 2 ^ 60 else 0
  byColorBB := fun c => if c = Color.white then 2 ^ 4 else 2 ^ 60
  pieceCount := fun _ t => if t = PieceType.king then 1 else 0
  pieceCountAll := fun _ => 1

/-- C6 (witness): the invariant preservation applied to the concrete
two-king position: putting a white pawn on e2 (square 12), removing the
black king from e8, and moving the white king e1 to d1 (square 3). -/
theorem C6_bitboard_invariants_witness :
    InvBB kingsOnly ∧
    InvBB (put_piece kingsOnly Color.white PieceType.pawn 12) ∧
    InvBB (remove_piece kingsOnly 60) ∧
    InvBB (move_piece kingsOnly 4 3) := by
  have hinv : InvBB kingsOnly := by decide
  have hcd : kingsOnly.byColorBB Color.white &&& kingsOnly.byColorBB Color.black = 0 := by
    decide
  have h := C6_bitboard_invariants kingsOnly hinv hcd
  refine ⟨hinv, h.1 Color.white PieceType.pawn 12 (by decide),
    h.2.1 60 Color.black PieceType.king (by decide) (by decide) (by decide),
    h.2.2 4 3 Color.white PieceType.king (by decide) (by decide) (by decide)
      (by decide) (by decide)⟩

end Fluorine
